import Mathlib

/-!
Verification of libdpkg version parsing/formatting (lib/dpkg/parsehelp.c),
command argv construction and the runcmd helper (lib/dpkg/command.c), and
the filesystem-node hash table (fsys-hash.c).

Strings are modelled as `List Char` (dpkg uses locale-independent ASCII
classification), C `int`/`long` values as `Nat`/`Int` with explicit bounds,
and fallible C functions as `Except`/sum-like result types.
-/

namespace Dpkg

/-! ### ASCII character classification (dpkg c-ctype, locale independent) -/

/-- ASCII blank: space or tab (`c_isblank`). -/
def c_isblank (c : Char) : Bool := c = ' ' || c = '\t'

/-- ASCII digit (`c_isdigit`). -/
def c_isdigit (c : Char) : Bool := '0' ≤ c && c ≤ '9'

/-- ASCII letter (`c_isalpha`). -/
def c_isalpha (c : Char) : Bool := ('a' ≤ c && c ≤ 'z') || ('A' ≤ c && c ≤ 'Z')

/-- ASCII whitespace as skipped by C `strtol` (`isspace`). -/
def c_isspace (c : Char) : Bool :=
  c = ' ' || c = '\t' || c = '\n' || c = '\x0b' || c = '\x0c' || c = '\r'

/-- C `INT_MAX` on the targeted platforms. -/
def INT_MAX : Nat := 2147483647

/-! ### Decimal digits -/

/-- The ASCII character of a decimal digit. -/
def digitChar (d : Nat) : Char := Char.ofNat (48 + d)

/-- Value of a big-endian decimal digit string (the accumulation a C
decimal converter performs). -/
def digitsVal (s : List Char) : Nat := s.foldl (fun a c => a * 10 + (c.toNat - 48)) 0

/-- Decimal rendering of a natural number, as printed by `printf %u`. -/
def natDigits (n : Nat) : List Char :=
  if n = 0 then ['0'] else ((Nat.digits 10 n).map digitChar).reverse

/-! ### C `strtol` (base 10) on the modelled string

Returns the mathematical value of the converted prefix together with the
offset of the first unconsumed character (`endptr - nptr`); the offset is 0
exactly when no conversion was performed.  Range clamping by `strtol` is not
modelled: `parseversion` only compares the result against 0 and `INT_MAX`,
and the classification of every input is unchanged by clamping (negative
overflow clamps to a negative value, positive overflow to a value above
`INT_MAX`). -/
def strtol (s : List Char) : Int × Nat :=
  let ws := s.takeWhile c_isspace
  let s1 := s.dropWhile c_isspace
  let neg : Bool := s1.head? = some '-'
  let signLen : Nat := if s1.head? = some '-' || s1.head? = some '+' then 1 else 0
  let ds := (s1.drop signLen).takeWhile c_isdigit
  if ds = [] then (0, 0)
  else ((if neg then -(digitsVal ds : Int) else (digitsVal ds : Int)),
        ws.length + signLen + ds.length)

/-- C `strchr(s, c)` splitting: `some (pre, post)` when `s = pre ++ c :: post`
with `c ∉ pre`, `none` when `c` does not occur. -/
def splitAtFirstChar (c : Char) : List Char → Option (List Char × List Char)
  | [] => none
  | x :: r =>
    if x = c then some ([], r)
    else (splitAtFirstChar c r).map (fun pq => (x :: pq.1, pq.2))

/-- C `strrchr(s, '-')` splitting: `some (pre, post)` when `s = pre ++ '-' :: post`
with `'-' ∉ post` (the last hyphen), `none` when no hyphen occurs. -/
def splitAtLastHyphen (s : List Char) : Option (List Char × List Char) :=
  let r := s.reverse
  if '-' ∈ r then
    some (((r.dropWhile (fun c => c ≠ '-')).drop 1).reverse,
          (r.takeWhile (fun c => c ≠ '-')).reverse)
  else none

/-! ### Version data model (struct dpkg_version) -/

/-- `struct dpkg_version`: epoch (non-negative C int, printed with `%u`),
upstream version and revision strings.  The NULL/"" pointer distinction is
collapsed: `parseversion` always stores non-NULL strings, and every reader in
the sources treats NULL and "" alike. -/
structure DpkgVersion where
  epoch : Nat
  version : List Char
  revision : List Char
deriving DecidableEq

/-- Hard (error-level) failures of `parseversion`, one per
`dpkg_put_error` return in the source. -/
inductive VersionError
  | emptyVersion
  | embeddedSpaces
  | emptyEpoch
  | nonNumericEpoch
  | negativeEpoch
  | epochTooLarge
  | emptyAfterEpochColon
  | emptyRevision
  | emptyVersionNumber
deriving DecidableEq

/-- Warning-level failures of `parseversion`, one per `dpkg_put_warn`
return in the source. -/
inductive VersionWarning
  | noDigitStart
  | invalidCharVersion
  | invalidCharRevision
deriving DecidableEq

/-- Result of `parseversion`: return value 0 (`ok`), or -1 with `err`
filled by `dpkg_put_warn` (`warn`, the output version is fully written) or
by `dpkg_put_error` (`error`). -/
inductive ParseResult
  | ok (v : DpkgVersion)
  | warn (v : DpkgVersion) (w : VersionWarning)
  | error (e : VersionError)
deriving DecidableEq

/-- The version components written to `*rversion` by a run of `parseversion`
that reached the final character checks (return 0 or a warning). -/
def resultVersion : ParseResult → Option DpkgVersion
  | .ok v => some v
  | .warn v _ => some v
  | .error _ => none

/-- Tail of `parseversion` (parsehelp.c:242-257): the character checks on the
already-split upstream/revision components. -/
def parseversion_checks (epoch : Nat) (ver rev : List Char) : ParseResult :=
  let v : DpkgVersion := ⟨epoch, ver, rev⟩
  match ver with
  | [] => .error .emptyVersionNumber
  | c :: cs =>
    if ¬ c_isdigit c then .warn v .noDigitStart
    else if cs.any (fun x => ¬ (c_isdigit x || c_isalpha x || x ∈ ['.', '-', '+', '~', ':'])) then
      .warn v .invalidCharVersion
    else if rev.any (fun x => ¬ (c_isdigit x || c_isalpha x || x ∈ ['.', '+', '~'])) then
      .warn v .invalidCharRevision
    else .ok v

/-- Middle of `parseversion` (parsehelp.c:232-240): the stored upstream
string is split at its last hyphen into version and revision. -/
def parseversion_rest (epoch : Nat) (s : List Char) : ParseResult :=
  match splitAtLastHyphen s with
  | none => parseversion_checks epoch s []
  | some (ver, rev) =>
    if rev = [] then .error .emptyRevision
    else parseversion_checks epoch ver rev

/-- Epoch recognition of `parseversion` (parsehelp.c:211-231): `strtol` is
run on the trimmed string and its stop position compared against the first
`:`; the upstream slice handed on is the text after the colon truncated at
the token end (`nfstrnsave(string, end-string)`). -/
def parseversion_epoch (s1 tok : List Char) : ParseResult :=
  match splitAtFirstChar ':' s1 with
  | none => parseversion_rest 0 tok
  | some (pre, post1) =>
    let r := strtol s1
    if r.2 = 0 then .error .emptyEpoch
    else if r.2 ≠ pre.length then .error .nonNumericEpoch
    else if r.1 < 0 then .error .negativeEpoch
    else if r.1 > (INT_MAX : Int) then .error .epochTooLarge
    else if post1 = [] then .error .emptyAfterEpochColon
    else parseversion_rest r.1.toNat (post1.take (tok.length - (pre.length + 1)))

/-- `parseversion` (parsehelp.c:185-258).  Leading blanks are skipped, the
token runs to the first blank, trailing blanks are allowed but any further
character is an embedded-space error; then the epoch and the split-off
revision are processed on the trimmed text. -/
def parseversion (s : List Char) : ParseResult :=
  let s1 := s.dropWhile c_isblank
  if s1 = [] then .error .emptyVersion
  else
    let tok := s1.takeWhile (fun c => ¬ c_isblank c)
    let after := s1.drop tok.length
    if ¬ (after.dropWhile c_isblank) = [] then .error .embeddedSpaces
    else parseversion_epoch s1 tok

/-- Outcome of `parse_db_version` (parsehelp.c:271-292): success, a
non-fatal `parse_warn`, or a fatal `parse_error` (which records whether the
escalated message came from a warning-level or error-level parse result). -/
inductive DbParseOutcome
  | parsed (v : DpkgVersion)
  | warned (v : DpkgVersion) (w : VersionWarning)
  | fatalFromWarn (w : VersionWarning)
  | fatalFromError (e : VersionError)
deriving DecidableEq

/-- `parse_db_version`: a failing parse is downgraded to a warning exactly
when the error is warning-level and `pdb_lax_version_parser` (here the
`lax` flag) is set; otherwise it is a fatal parse error. -/
def parse_db_version (lax : Bool) (s : List Char) : DbParseOutcome :=
  match parseversion s with
  | .ok v => .parsed v
  | .warn v w => if lax then .warned v w else .fatalFromWarn w
  | .error e => .fatalFromError e

/-! ### Version formatting (varbufversion, versiondescribe) -/

/-- `enum versiondisplayepochwhen`. -/
inductive Vdew
  | never
  | nonambig
  | always
deriving DecidableEq

/-- `varbufversion` (parsehelp.c:126-151), modelled as the emitted character
sequence: the epoch prefix `E:` is printed always, never, or (nonambig) only
when the epoch is non-zero or a component contains a colon; then the
upstream string; then `-revision` when the revision is non-empty. -/
def varbufversion (v : DpkgVersion) (vdew : Vdew) : List Char :=
  (match vdew with
   | .never => []
   | .nonambig =>
     if v.epoch = 0 ∧ ':' ∉ v.version ∧ ':' ∉ v.revision then []
     else natDigits v.epoch ++ [':']
   | .always => natDigits v.epoch ++ [':'])
  ++ v.version ++ (if v.revision ≠ [] then '-' :: v.revision else [])

/-- Modelled from the spec: `dpkg_version_is_informative` (declared in the
dpkg-db header, which is not among the provided sources) — a version is
informative when its epoch is non-zero or its upstream or revision string is
set (non-empty). -/
def dpkg_version_is_informative (v : DpkgVersion) : Bool :=
  decide (v.epoch ≠ 0) || ¬ v.version.isEmpty || ¬ v.revision.isEmpty

/-- `versiondescribe` (parsehelp.c:153-171): the placeholder for a
non-informative version, otherwise the `varbufversion` rendering. -/
def versiondescribe (v : DpkgVersion) (vdew : Vdew) : List Char :=
  if ¬ dpkg_version_is_informative v then "<none>".data
  else varbufversion v vdew

/-! ### Command argv construction (command.c)

The `argv` pointer array is modelled as a list of cells: a cell is either
uninitialised heap memory (`undef`, as after `m_malloc`/`m_realloc`), the
NULL terminator, or a stored argument pointer. -/

/-- One slot of the `argv` array. -/
inductive Cell
  | undef
  | null
  | val (a : List Char)
deriving DecidableEq

/-- Modelled from the spec: `path_basename` (dpkg path helpers, not among
the provided sources) — the component after the last slash. -/
def path_basename (s : List Char) : List Char :=
  ((s.reverse.takeWhile (fun c => c ≠ '/')).reverse)

/-- `struct command`: filename, descriptive name, argument count, allocated
size of the argv array, and the argv array itself. -/
structure Command where
  filename : List Char
  name : List Char
  argc : Nat
  argv_size : Nat
  argv : List Cell
deriving DecidableEq

/-- `command_init` (command.c:54-66): 10 slots allocated, `argv[0] = NULL`. -/
def command_init (filename : List Char) (name : Option (List Char)) : Command :=
  { filename := filename
    name := name.getD (path_basename filename)
    argc := 0
    argv_size := 10
    argv := (List.replicate 10 Cell.undef).set 0 Cell.null }

/-- `command_grow_argv` (command.c:87-99): ensure room for `need` more
slots plus the NUL ghost slot; `realloc` preserves the old cells and leaves
the added ones uninitialised. -/
def command_grow_argv (cmd : Command) (need : Nat) : Command :=
  let need := need + 1
  if (cmd.argv_size : Int) - (cmd.argc : Int) ≥ (need : Int) then cmd
  else
    let newsize := (cmd.argv_size + need) * 2
    { cmd with
        argv_size := newsize
        argv := cmd.argv ++ List.replicate (newsize - cmd.argv_size) Cell.undef }

/-- `command_add_arg` (command.c:107-114). -/
def command_add_arg (cmd : Command) (arg : List Char) : Command :=
  let cmd := command_grow_argv cmd 1
  { cmd with
      argc := cmd.argc + 1
      argv := (cmd.argv.set cmd.argc (Cell.val arg)).set (cmd.argc + 1) Cell.null }

/-- The element-copy loop shared by `command_add_argl` and
`command_add_argv`: write the arguments at consecutive indices. -/
def command_write_args (cells : List Cell) (i : Nat) : List (List Char) → List Cell
  | [] => cells
  | a :: rest => command_write_args (cells.set i (Cell.val a)) (i + 1) rest

/-- `command_add_argl` (command.c:122-136): append a whole argument array,
then NULL-terminate. -/
def command_add_argl (cmd : Command) (args : List (List Char)) : Command :=
  let cmd := command_grow_argv cmd args.length
  { cmd with
      argc := cmd.argc + args.length
      argv := (command_write_args cmd.argv cmd.argc args).set (cmd.argc + args.length) Cell.null }

/-- `command_add_argv` (command.c:144-161): identical copy loop over a
`va_list` of arguments. -/
def command_add_argv (cmd : Command) (args : List (List Char)) : Command :=
  let cmd := command_grow_argv cmd args.length
  { cmd with
      argc := cmd.argc + args.length
      argv := (command_write_args cmd.argv cmd.argc args).set (cmd.argc + args.length) Cell.null }

/-- One call in a sequence of argv-building operations. -/
inductive CmdOp
  | one (a : List Char)
  | many (l : List (List Char))
  | vmany (l : List (List Char))

/-- Dispatch of a `CmdOp` to the corresponding command.c function. -/
def applyOp (cmd : Command) : CmdOp → Command
  | .one a => command_add_arg cmd a
  | .many l => command_add_argl cmd l
  | .vmany l => command_add_argv cmd l

/-- The arguments appended by a `CmdOp`. -/
def opArgs : CmdOp → List (List Char)
  | .one a => [a]
  | .many l => l
  | .vmany l => l

/-- The argv invariant: the array is exactly `argv_size` cells, the appended
arguments sit at indices `0..argc-1` in order, index `argc` holds the NULL
terminator, and the capacity covers the terminator. -/
def command_argv_invariant (cmd : Command) (args : List (List Char)) : Prop :=
  cmd.argv.length = cmd.argv_size ∧
  cmd.argc = args.length ∧
  args.length + 1 ≤ cmd.argv_size ∧
  cmd.argv.take cmd.argc = args.map Cell.val ∧
  cmd.argv.get? cmd.argc = some Cell.null

/-! ### runcmd (command.c:357-376) -/

/-- The byte sequence produced by runcmd's copy loop: each argument copied
verbatim followed by a joining space. -/
def runcmdJoin (argv : List (List Char)) : List Char :=
  (argv.map (fun a => a ++ [' '])).flatten

/-- Total bytes written into `cmdstring` by runcmd: the joined arguments
plus the terminating NUL. -/
def runcmdBytes (argv : List (List Char)) : Nat := (runcmdJoin argv).length + 1

/-- The size of runcmd's fixed `char cmdstring[200]` buffer. -/
def CMDSTRING_SIZE : Nat := 200

/-- Modelled from the spec: POSIX shell field splitting on unquoted blanks,
as performed on the string `command_shell` hands to `sh -c` (the shell
itself is outside the provided sources). -/
def shellWordsAux : List Char → List Char → List (List Char)
  | [], acc => if acc = [] then [] else [acc.reverse]
  | c :: rest, acc =>
    if c_isblank c then
      if acc = [] then shellWordsAux rest []
      else acc.reverse :: shellWordsAux rest []
    else shellWordsAux rest (c :: acc)

/-- Field splitting of a whole string. -/
def shellWords (s : List Char) : List (List Char) := shellWordsAux s []

/-! ### Filesystem-node hash table (fsys-hash.c) -/

/-- The `newhash` field: NULL, the `EMPTYHASHFLAG` sentinel, or an actual
hash string. -/
inductive NewHash
  | null
  | emptyFlag
  | hashed (s : List Char)
deriving DecidableEq

/-- `struct fsys_namenode` (fsys.h).  The intrusive `next` pointer is
represented by the position in the bin's list; opaque pointers to package
lists, diversions, stat overrides and trigger interests are modelled as
abstract references. -/
structure FsysNamenode where
  name : List Char
  packages : List Nat
  divert : Option Nat
  statoverride : Option Nat
  trig_interested : Option Nat
  flags : Nat
  oldhash : Option (List Char)
  newhash : NewHash
  file_ondisk_id : Option Nat
deriving DecidableEq

/-- Number of hash bins (fsys-hash.c:38). -/
def BINS : Nat := 262139

/-- Modelled from the spec: `str_fnv_hash` (dpkg string helpers, not among
the provided sources) — 32-bit FNV-1a over the bytes of the name.  The
claims proved below hold for any hash function. -/
def str_fnv_hash (s : List Char) : Nat :=
  s.foldl (fun h c => ((h ^^^ c.toNat) * 16777619) % 4294967296) 2166136261

/-- Modelled from the spec: `path_skip_slash_dotslash` (dpkg path helpers,
not among the provided sources) — strip leading `/` and `./` pairs.  The
loop advances one character at a time while the head is `/`, or is `.`
followed by `/`. -/
def path_skip_slash_dotslash : List Char → List Char
  | [] => []
  | c :: rest =>
    if c = '/' ∨ (c = '.' ∧ rest.head? = some '/') then path_skip_slash_dotslash rest
    else c :: rest

/-- `enum fsys_hash_find_flags`: `FHFF_NONE` (may return NULL instead of
creating) and `FHFF_NOCOPY` (the caller's name string may be borrowed). -/
structure FindFlags where
  fhff_none : Bool
  fhff_nocopy : Bool

/-- The fatal internal error raised on a stored node whose name does not
start with a slash. -/
inductive InternErr
  | nodeNameNotSlash
deriving DecidableEq

/-- The table: bins of chained nodes plus the `nfiles` counter.  Only
indices below `BINS` are ever addressed. -/
structure FsysHash where
  bins : Nat → List FsysNamenode
  nfiles : Nat

/-- The chain walk of `fsys_hash_find_node` (fsys-hash.c:87-98): each
node's stored name must start with `/` (otherwise `internerr`), and the
name after the slash is compared with the normalized input. -/
def fsys_hash_chain_lookup : List FsysNamenode → List Char → Except InternErr (Option FsysNamenode)
  | [], _ => .ok none
  | n :: rest, target =>
    if ¬ n.name.head? = some '/' then .error .nodeNameNotSlash
    else if n.name.drop 1 = target then .ok (some n)
    else fsys_hash_chain_lookup rest target

/-- `fsys_hash_find_node` (fsys-hash.c:76-128).  The input is normalized by
stripping leading slashes and `./` pairs; a hit returns the stored node; on
a miss, unless `FHFF_NONE` is set, a fresh node is appended to the bin
chain.  With `FHFF_NOCOPY` and at least one stripped character whose last
is `/`, the name borrows the input suffix from that slash; otherwise a new
string `/` + normalized name is made. -/
def fsys_hash_find_node (t : FsysHash) (name : List Char) (flags : FindFlags) :
    Except InternErr (Option FsysNamenode × FsysHash) :=
  let orig := name
  let norm := path_skip_slash_dotslash name
  let h := str_fnv_hash norm % BINS
  match fsys_hash_chain_lookup (t.bins h) norm with
  | .error e => .error e
  | .ok (some n) => .ok (some n, t)
  | .ok none =>
    if flags.fhff_none then .ok (none, t)
    else
      let nodeName :=
        if flags.fhff_nocopy ∧ norm.length < orig.length ∧
           orig.get? (orig.length - norm.length - 1) = some '/' then
          orig.drop (orig.length - norm.length - 1)
        else '/' :: norm
      let newnode : FsysNamenode :=
        { name := nodeName, packages := [], divert := none, statoverride := none
          trig_interested := none, flags := 0, oldhash := none
          newhash := .emptyFlag, file_ondisk_id := none }
      .ok (some newnode,
           { bins := fun i => if i = h then t.bins h ++ [newnode] else t.bins i
             nfiles := t.nfiles + 1 })

/-- The stored name of the node produced by a lookup, when one is. -/
def find_result_name : Except InternErr (Option FsysNamenode × FsysHash) → Option (List Char)
  | .ok (some n, _) => some n.name
  | _ => none

/-- Whether a lookup completed without an internal error. -/
def find_result_ok : Except InternErr (Option FsysNamenode × FsysHash) → Bool
  | .ok _ => true
  | .error _ => false

/-- `fsys_hash_init` (fsys-hash.c:43-57): walk every chain of every bin and
clear each node's transient run-state. -/
def fsys_hash_init (t : FsysHash) : FsysHash :=
  { t with
      bins := fun i =>
        (t.bins i).map (fun fnn =>
          { fnn with flags := 0, oldhash := none, newhash := .emptyFlag
                     file_ondisk_id := none }) }

/-- `fsys_hash_reset` (fsys-hash.c:59-68): empty every bin and zero the
node counter. -/
def fsys_hash_reset (_t : FsysHash) : FsysHash :=
  { bins := fun _ => [], nfiles := 0 }

/-- `fsys_hash_entries` (fsys-hash.c:70-74). -/
def fsys_hash_entries (t : FsysHash) : Nat := t.nfiles

/-! ### General list helpers -/

theorem map_const_replicate {α β : Type} (l : List α) (b : β) :
    l.map (fun _ => b) = List.replicate l.length b := by
  induction l with
  | nil => rfl
  | cons a l ih => simp [List.replicate, ih]

theorem take_set_of_ge {α : Type} (l : List α) (i k : Nat) (x : α) (h : k ≤ i) :
    (l.set i x).take k = l.take k := by
  induction l generalizing i k with
  | nil => simp
  | cons a l ih =>
    cases i with
    | zero => cases k with
      | zero => simp
      | succ k => omega
    | succ i =>
      cases k with
      | zero => simp
      | succ k => simp [List.set, ih i k (by omega)]

theorem take_succ_set {α : Type} (l : List α) (i : Nat) (x : α) (h : i < l.length) :
    (l.set i x).take (i + 1) = l.take i ++ [x] := by
  induction l generalizing i with
  | nil => simp at h
  | cons a l ih =>
    cases i with
    | zero => simp
    | succ i => simp [List.set, ih i (by simpa using h)]

theorem get?_set_self {α : Type} (l : List α) (i : Nat) (x : α) (h : i < l.length) :
    (l.set i x).get? i = some x := by
  induction l generalizing i with
  | nil => simp at h
  | cons a l ih =>
    cases i with
    | zero => simp
    | succ i => simpa [List.set] using ih i (by simpa using h)

theorem write_args_length (cells : List Cell) (i : Nat) (as : List (List Char)) :
    (command_write_args cells i as).length = cells.length := by
  induction as generalizing cells i with
  | nil => rfl
  | cons a as ih => simp [command_write_args, ih]

theorem write_args_take_front (cells : List Cell) (i k : Nat) (as : List (List Char))
    (h : k ≤ i) : (command_write_args cells i as).take k = cells.take k := by
  induction as generalizing cells i with
  | nil => rfl
  | cons a as ih =>
    simp only [command_write_args]
    rw [ih _ (i + 1) (by omega), take_set_of_ge _ _ _ _ h]

theorem write_args_take_all (cells : List Cell) (i : Nat) (as : List (List Char))
    (h : i + as.length ≤ cells.length) :
    (command_write_args cells i as).take (i + as.length) =
      cells.take i ++ as.map Cell.val := by
  induction as generalizing cells i with
  | nil => simp [command_write_args]
  | cons a as ih =>
    simp only [command_write_args, List.length_cons]
    have hlen : i < cells.length := by simp at h; omega
    have := ih (cells.set i (Cell.val a)) (i + 1)
      (by simp at h ⊢; omega)
    rw [show i + (as.length + 1) = (i + 1) + as.length by omega, this,
        take_succ_set _ _ _ hlen]
    simp

/-! ### Invariant preservation for command argv construction -/

theorem command_grow_argv_spec (cmd : Command) (need : Nat)
    (hlen : cmd.argv.length = cmd.argv_size) (hcap : cmd.argc + 1 ≤ cmd.argv_size) :
    (command_grow_argv cmd need).argc = cmd.argc ∧
    (command_grow_argv cmd need).argv.length = (command_grow_argv cmd need).argv_size ∧
    cmd.argc + need + 1 ≤ (command_grow_argv cmd need).argv_size ∧
    (∀ k, k ≤ cmd.argv.length → (command_grow_argv cmd need).argv.take k = cmd.argv.take k) ∧
    (∀ j, j < cmd.argv.length → (command_grow_argv cmd need).argv.get? j = cmd.argv.get? j) := by
  unfold command_grow_argv
  dsimp only
  split
  · rename_i hc
    refine ⟨rfl, hlen, by omega, fun k _ => rfl, fun j _ => rfl⟩
  · rename_i hc
    refine ⟨rfl, ?_, ?_, ?_, ?_⟩
    · simp [hlen]
      omega
    · simp
      omega
    · intro k hk
      exact List.take_append_of_le_length hk
    · intro j hj
      exact List.get?_append hj

theorem command_argv_invariant_step (cmd : Command) (args : List (List Char)) (op : CmdOp)
    (h : command_argv_invariant cmd args) :
    command_argv_invariant (applyOp cmd op) (args ++ opArgs op) := by
  obtain ⟨hlen, hargc, hcap, htake, hnull⟩ := h
  have hmain : ∀ l : List (List Char),
      command_argv_invariant
        (let g := command_grow_argv cmd l.length
         { g with
             argc := g.argc + l.length
             argv := (command_write_args g.argv g.argc l).set (g.argc + l.length) Cell.null })
        (args ++ l) := by
    intro l
    obtain ⟨hgc, hglen, hgcap, hgtake, hgget⟩ :=
      command_grow_argv_spec cmd l.length hlen (by omega)
    set g := command_grow_argv cmd l.length with hg
    have hargclen : cmd.argc ≤ cmd.argv.length := by omega
    have hroom : g.argc + l.length < g.argv.length := by
      rw [hglen, hgc]; omega
    refine ⟨?_, ?_, ?_, ?_, ?_⟩
    · simp [List.length_set, write_args_length, hglen]
    · simp [hgc, hargc]
    · show (args ++ l).length + 1 ≤ g.argv_size
      rw [List.length_append, ← hargc]
      omega
    · show List.take (g.argc + l.length) _ = _
      rw [take_set_of_ge _ _ _ _ (le_refl _),
          write_args_take_all _ _ _ (by omega), hgc,
          hgtake cmd.argc hargclen, htake]
      simp [hargc]
    · show List.get? _ (g.argc + l.length) = _
      exact get?_set_self _ _ _ (by rw [write_args_length]; exact hroom)
  cases op with
  | one a =>
    have := hmain [a]
    simpa [applyOp, command_add_arg, command_add_argl, command_write_args] using this
  | many l =>
    simpa [applyOp, command_add_argl] using hmain l
  | vmany l =>
    simpa [applyOp, command_add_argv] using hmain l

theorem command_argv_invariant_fold (cmd : Command) (args : List (List Char))
    (ops : List CmdOp) (h : command_argv_invariant cmd args) :
    command_argv_invariant (ops.foldl applyOp cmd) (args ++ (ops.map opArgs).flatten) := by
  induction ops generalizing cmd args with
  | nil => simpa using h
  | cons op ops ih =>
    have := ih (applyOp cmd op) (args ++ opArgs op) (command_argv_invariant_step cmd args op h)
    simpa using this

/-! ### Character-class and scanning lemmas -/

theorem digit_char_facts (c : Char) (h : c_isdigit c = true) :
    c_isspace c = false ∧ c_isblank c = false ∧ c ≠ '-' ∧ c ≠ '+' ∧ c ≠ ':' := by
  simp only [c_isdigit, Bool.and_eq_true, decide_eq_true_eq] at h
  obtain ⟨h1, h2⟩ := h
  refine ⟨?_, ?_, ?_, ?_, ?_⟩
  · simp only [c_isspace, Bool.or_eq_false_iff, decide_eq_false_iff_not]
    refine ⟨⟨⟨⟨⟨?_, ?_⟩, ?_⟩, ?_⟩, ?_⟩, ?_⟩ <;> (rintro rfl; revert h1 h2; decide)
  · simp only [c_isblank, Bool.or_eq_false_iff, decide_eq_false_iff_not]
    refine ⟨?_, ?_⟩ <;> (rintro rfl; revert h1 h2; decide)
  · rintro rfl; revert h1 h2; decide
  · rintro rfl; revert h1 h2; decide
  · rintro rfl; revert h1 h2; decide

theorem takeWhile_of_all {p : Char → Bool} (l : List Char)
    (h : ∀ c ∈ l, p c = true) : l.takeWhile p = l := by
  induction l with
  | nil => rfl
  | cons a l ih =>
    simp [List.takeWhile_cons, h a (by simp), ih (fun c hc => h c (by simp [hc]))]

theorem dropWhile_of_head {p : Char → Bool} (l : List Char) (c : Char)
    (hc : l.head? = some c) (h : p c = false) : l.dropWhile p = l := by
  cases l with
  | nil => rfl
  | cons a l =>
    simp only [List.head?_cons, Option.some_inj] at hc
    subst hc
    simp [List.dropWhile_cons, h]

theorem takeWhile_append_stop {p : Char → Bool} (a b : List Char) (c : Char)
    (ha : ∀ x ∈ a, p x = true) (hc : p c = false) :
    (a ++ c :: b).takeWhile p = a := by
  induction a with
  | nil => simp [List.takeWhile_cons, hc]
  | cons x a ih =>
    simp only [List.cons_append, List.takeWhile_cons, ha x (by simp)]
    simp [ih (fun y hy => ha y (by simp [hy]))]

theorem takeWhile_append_of_junk {p : Char → Bool} (a b : List Char)
    (ha : a.dropWhile p ≠ []) : (a ++ b).takeWhile p = a.takeWhile p := by
  induction a with
  | nil => simp at ha
  | cons x a ih =>
    by_cases hx : p x = true
    · simp only [List.dropWhile_cons, hx, if_true] at ha
      simp [List.takeWhile_cons, hx, ih ha]
    · simp only [Bool.not_eq_true] at hx
      simp [List.takeWhile_cons, hx]

theorem dropWhile_ne_nil_length {p : Char → Bool} (a : List Char)
    (ha : a.dropWhile p ≠ []) : (a.takeWhile p).length < a.length := by
  have h := congrArg List.length (List.takeWhile_append_dropWhile (p := p) (l := a))
  rw [List.length_append] at h
  have h3 : (a.dropWhile p).length ≠ 0 := by
    simpa [List.length_eq_zero] using ha
  omega

theorem split_first_of_not_mem (c : Char) (s : List Char) (h : c ∉ s) :
    splitAtFirstChar c s = none := by
  induction s with
  | nil => rfl
  | cons x s ih =>
    simp only [List.mem_cons, not_or] at h
    simp [splitAtFirstChar, Ne.symm h.1, ih h.2]

theorem split_first_append (c : Char) (pre post : List Char) (h : c ∉ pre) :
    splitAtFirstChar c (pre ++ c :: post) = some (pre, post) := by
  induction pre with
  | nil => simp [splitAtFirstChar]
  | cons x pre ih =>
    simp only [List.mem_cons, not_or] at h
    simp [splitAtFirstChar, Ne.symm h.1, ih h.2]

theorem last_hyphen_of_not_mem (s : List Char) (h : '-' ∉ s) :
    splitAtLastHyphen s = none := by
  simp only [splitAtLastHyphen]
  rw [if_neg]
  simpa using h

theorem last_hyphen_append (a b : List Char) (h : '-' ∉ b) :
    splitAtLastHyphen (a ++ '-' :: b) = some (a, b) := by
  simp only [splitAtLastHyphen]
  have hrev : (a ++ '-' :: b).reverse = b.reverse ++ '-' :: a.reverse := by
    simp [List.reverse_append]
  rw [hrev]
  have hmem : '-' ∈ b.reverse ++ '-' :: a.reverse := by simp
  rw [if_pos hmem]
  have hb : ∀ x ∈ b.reverse, (decide (x ≠ '-')) = true := by
    intro x hx
    simp only [List.mem_reverse] at hx
    simp only [ne_eq, decide_eq_true_eq]
    rintro rfl
    exact h hx
  have ht : (b.reverse ++ '-' :: a.reverse).takeWhile (fun x => decide (x ≠ '-')) = b.reverse :=
    takeWhile_append_stop _ _ _ hb (by simp)
  have hd : (b.reverse ++ '-' :: a.reverse).dropWhile (fun x => decide (x ≠ '-')) =
      '-' :: a.reverse := by
    have h0 := List.takeWhile_append_dropWhile
      (p := fun x : Char => decide (x ≠ '-')) (l := b.reverse ++ '-' :: a.reverse)
    rw [ht] at h0
    exact List.append_cancel_left h0
  rw [ht, hd]
  simp

/-! ### Structure of parseversion results -/

theorem checks_result (e : Nat) (a b : List Char) (h : a ≠ []) :
    resultVersion (parseversion_checks e a b) = some ⟨e, a, b⟩ := by
  obtain ⟨c, cs, rfl⟩ := List.exists_cons_of_ne_nil h
  simp only [parseversion_checks]
  split_ifs <;> rfl

theorem checks_result_inv (e : Nat) (a b : List Char) (v : DpkgVersion)
    (h : resultVersion (parseversion_checks e a b) = some v) : v = ⟨e, a, b⟩ := by
  cases a with
  | nil => simp [parseversion_checks, resultVersion] at h
  | cons c cs =>
    rw [checks_result e (c :: cs) b (by simp)] at h
    exact (Option.some_inj.mp h).symm

theorem rest_no_hyphen (e : Nat) (s : List Char) (h : '-' ∉ s) :
    parseversion_rest e s = parseversion_checks e s [] := by
  unfold parseversion_rest
  rw [last_hyphen_of_not_mem s h]

theorem rest_hyphen (e : Nat) (a b : List Char) (hb : '-' ∉ b) (hne : b ≠ []) :
    parseversion_rest e (a ++ '-' :: b) = parseversion_checks e a b := by
  unfold parseversion_rest
  rw [last_hyphen_append a b hb]
  dsimp only
  rw [if_neg hne]

theorem rest_empty_revision (e : Nat) (a : List Char) :
    parseversion_rest e (a ++ ['-']) = .error .emptyRevision := by
  unfold parseversion_rest
  rw [last_hyphen_append a [] (by simp)]
  rfl

theorem rest_epoch (e : Nat) (s : List Char) (v : DpkgVersion)
    (h : resultVersion (parseversion_rest e s) = some v) : v.epoch = e := by
  unfold parseversion_rest at h
  rcases hs : splitAtLastHyphen s with _ | ⟨ver, rev⟩
  · rw [hs] at h
    dsimp only at h
    have := checks_result_inv e s [] v h
    simp [this]
  · rw [hs] at h
    dsimp only at h
    by_cases hr : rev = []
    · rw [if_pos hr] at h
      simp [resultVersion] at h
    · rw [if_neg hr] at h
      have := checks_result_inv e ver rev v h
      simp [this]

/-! ### strtol computations -/

theorem strtol_colon_head (post : List Char) : strtol (':' :: post) = (0, 0) := by
  unfold strtol
  dsimp only
  rw [List.takeWhile_cons, List.dropWhile_cons,
      show c_isspace ':' = false from by decide]
  simp only [Bool.false_eq_true, if_false, List.head?_cons]
  rw [if_neg (show ¬ ((decide ((some ':' : Option Char) = some '-') ||
        decide ((some ':' : Option Char) = some '+')) = true) from by decide)]
  rw [List.drop_zero, List.takeWhile_cons, show c_isdigit ':' = false from by decide]
  simp

theorem strtol_posdigits (pre post : List Char) (d : Char) (pre' : List Char)
    (hpre : pre = d :: pre') (hd : c_isdigit d = true) :
    strtol (pre ++ ':' :: post) =
      ((digitsVal (pre.takeWhile c_isdigit) : Int), (pre.takeWhile c_isdigit).length) := by
  obtain ⟨hsp, hbl, hm, hp, hcol⟩ := digit_char_facts d hd
  subst hpre
  have hds : (d :: (pre' ++ ':' :: post)).takeWhile c_isdigit
      = (d :: pre').takeWhile c_isdigit := by
    rw [← List.cons_append]
    by_cases hdw : (d :: pre').dropWhile c_isdigit = []
    · have hall : ∀ c ∈ d :: pre', c_isdigit c = true := by
        intro c hc
        exact (List.dropWhile_eq_nil_iff.mp hdw) c hc
      rw [takeWhile_of_all _ hall]
      exact takeWhile_append_stop _ _ _ hall (by decide)
    · exact takeWhile_append_of_junk _ _ hdw
  have hne : (d :: pre').takeWhile c_isdigit ≠ [] := by
    simp [List.takeWhile_cons, hd]
  have hnegf : decide ((some d : Option Char) = some '-') = false :=
    decide_eq_false (by simp [hm])
  have hplusf : decide ((some d : Option Char) = some '+') = false :=
    decide_eq_false (by simp [hp])
  unfold strtol
  dsimp only
  rw [List.cons_append, List.takeWhile_cons, List.dropWhile_cons, hsp]
  simp only [Bool.false_eq_true, if_false, List.head?_cons, hnegf, hplusf,
    Bool.or_self, List.drop_zero, hds]
  rw [if_neg hne]
  simp

theorem strtol_negdigits (ds post : List Char) (hne : ds ≠ [])
    (hall : ∀ c ∈ ds, c_isdigit c = true) :
    strtol (('-' :: ds) ++ ':' :: post) = (-(digitsVal ds : Int), 1 + ds.length) := by
  have hds : (ds ++ ':' :: post).takeWhile c_isdigit = ds :=
    takeWhile_append_stop _ _ _ hall (by decide)
  unfold strtol
  dsimp only
  rw [List.cons_append, List.takeWhile_cons, List.dropWhile_cons,
      show c_isspace '-' = false from by decide]
  simp [hds, hne, Nat.add_comm]

/-! ### Decimal rendering facts -/

theorem digitChar_isdigit (d : Nat) (h : d < 10) : c_isdigit (digitChar d) = true := by
  interval_cases d <;> decide

theorem digitChar_toNat (d : Nat) (h : d < 10) : (digitChar d).toNat = 48 + d := by
  interval_cases d <;> decide

theorem natDigits_all_digits (n : Nat) : ∀ c ∈ natDigits n, c_isdigit c = true := by
  intro c hc
  unfold natDigits at hc
  by_cases h0 : n = 0
  · rw [if_pos h0] at hc
    simp at hc
    subst hc
    decide
  · rw [if_neg h0] at hc
    simp only [List.mem_reverse, List.mem_map] at hc
    obtain ⟨d, hd, rfl⟩ := hc
    exact digitChar_isdigit d (Nat.digits_lt_base (by norm_num) hd)

theorem natDigits_ne_nil (n : Nat) : natDigits n ≠ [] := by
  unfold natDigits
  by_cases h0 : n = 0
  · simp [h0]
  · rw [if_neg h0]
    simp [Nat.digits_ne_nil_iff_ne_zero, h0]

theorem digitsVal_rev_map (ds : List Nat) (h : ∀ d ∈ ds, d < 10) :
    digitsVal ((ds.map digitChar).reverse) = Nat.ofDigits 10 ds := by
  induction ds with
  | nil => rfl
  | cons d ds ih =>
    have hd := h d (by simp)
    have hval : digitsVal (((ds.map digitChar)).reverse ++ [digitChar d]) =
        digitsVal ((ds.map digitChar).reverse) * 10 + ((digitChar d).toNat - 48) := by
      unfold digitsVal
      rw [List.foldl_append]
      rfl
    rw [List.map_cons, List.reverse_cons, hval, ih (fun x hx => h x (by simp [hx])),
        digitChar_toNat d hd, Nat.ofDigits_cons]
    omega

theorem digitsVal_natDigits (n : Nat) : digitsVal (natDigits n) = n := by
  unfold natDigits
  by_cases h0 : n = 0
  · subst h0
    decide
  · rw [if_neg h0, digitsVal_rev_map _ (fun d hd => Nat.digits_lt_base (by norm_num) hd),
        Nat.ofDigits_digits]

/-! ### The trimming front end of parseversion -/

theorem parseversion_of_token (s : List Char) (hne : s ≠ [])
    (hb : ∀ c ∈ s, c_isblank c = false) : parseversion s = parseversion_epoch s s := by
  unfold parseversion
  obtain ⟨c, cs, rfl⟩ := List.exists_cons_of_ne_nil hne
  have hs1 : (c :: cs).dropWhile c_isblank = c :: cs :=
    dropWhile_of_head _ c rfl (hb c (by simp))
  have htok : (c :: cs).takeWhile (fun x => ¬ c_isblank x) = c :: cs :=
    takeWhile_of_all _ (fun x hx => by simp [hb x hx])
  rw [hs1]
  rw [if_neg (by simp)]
  rw [htok]
  simp [List.drop_length]

theorem parseversion_no_colon_epoch (s : List Char) (v : DpkgVersion)
    (hc : ':' ∉ s) (h : resultVersion (parseversion s) = some v) : v.epoch = 0 := by
  unfold parseversion at h
  by_cases h1 : s.dropWhile c_isblank = []
  · rw [if_pos h1] at h
    simp [resultVersion] at h
  · rw [if_neg h1] at h
    by_cases h2 : ¬ (((s.dropWhile c_isblank).drop
      ((s.dropWhile c_isblank).takeWhile (fun c => ¬ c_isblank c)).length).dropWhile c_isblank) = []
    · rw [if_pos h2] at h
      simp [resultVersion] at h
    · rw [if_neg h2] at h
      have hsub : ':' ∉ s.dropWhile c_isblank := by
        intro hmem
        exact hc ((List.dropWhile_sublist c_isblank).mem hmem)
      unfold parseversion_epoch at h
      rw [split_first_of_not_mem ':' _ hsub] at h
      exact rest_epoch 0 _ v h

/-- Exhaustive behaviour of the epoch recognition on a trimmed token
`pre ++ ':' :: post` whose epoch part is empty, digit-led, or a negative
number. -/
theorem parseversion_colon_cases (pre post : List Char)
    (hbp : ∀ c ∈ pre, c_isblank c = false) (hbq : ∀ c ∈ post, c_isblank c = false)
    (hcp : ':' ∉ pre)
    (hshape : pre = [] ∨ (∃ d pre', pre = d :: pre' ∧ c_isdigit d = true) ∨
              (∃ ds, pre = '-' :: ds ∧ ds ≠ [] ∧ (∀ c ∈ ds, c_isdigit c = true))) :
    parseversion (pre ++ ':' :: post) =
      (if pre = [] then .error .emptyEpoch
       else if pre.head? = some '-' then
         (if digitsVal (pre.drop 1) = 0 then
            (if post = [] then .error .emptyAfterEpochColon
             else parseversion_rest 0 post)
          else .error .negativeEpoch)
       else if ¬ pre.all c_isdigit then .error .nonNumericEpoch
       else if digitsVal pre > INT_MAX then .error .epochTooLarge
       else if post = [] then .error .emptyAfterEpochColon
       else parseversion_rest (digitsVal pre) post) := by
  have hbs : ∀ c ∈ pre ++ ':' :: post, c_isblank c = false := by
    intro c hc
    rcases List.mem_append.mp hc with h | h
    · exact hbp c h
    · rcases List.mem_cons.mp h with rfl | h
      · decide
      · exact hbq c h
  have hslen : (pre ++ ':' :: post).length - (pre.length + 1) = post.length := by
    simp only [List.length_append, List.length_cons]
    omega
  rw [parseversion_of_token _ (by cases pre <;> simp) hbs]
  unfold parseversion_epoch
  rw [split_first_append ':' pre post hcp]
  dsimp only
  rcases hshape with rfl | ⟨d, pre', hpre, hd⟩ | ⟨ds, hpre, hdsne, hall⟩
  · simp [strtol_colon_head]
  · rw [strtol_posdigits pre post d pre' hpre hd]
    dsimp only
    have hdpne : pre.takeWhile c_isdigit ≠ [] := by
      subst hpre
      simp [List.takeWhile_cons, hd]
    have hpne : pre ≠ [] := by subst hpre; simp
    have hnm : ¬ pre.head? = some '-' := by
      subst hpre
      simp only [List.head?_cons, Option.some_inj]
      rintro rfl
      revert hd
      decide
    rw [if_neg (show ¬ (pre.takeWhile c_isdigit).length = 0 from by
          simpa [List.length_eq_zero] using hdpne),
        if_neg hpne, if_neg hnm]
    by_cases hallp : pre.all c_isdigit
    · have hdp : pre.takeWhile c_isdigit = pre :=
        takeWhile_of_all _ (fun c hc => by
          have := List.all_eq_true.mp hallp c hc
          simpa using this)
      rw [hdp]
      rw [if_neg (show ¬ pre.length ≠ pre.length from by simp),
          if_neg (show ¬ ((digitsVal pre : Int) < 0) from by
            simp only [Int.not_lt]
            exact Int.natCast_nonneg _),
          if_neg (show ¬ ¬ pre.all c_isdigit = true from by simp [hallp])]
      by_cases hbig : digitsVal pre > INT_MAX
      · rw [if_pos (show (digitsVal pre : Int) > (INT_MAX : Int) from by exact_mod_cast hbig),
            if_pos hbig]
      · rw [if_neg (show ¬ ((digitsVal pre : Int) > (INT_MAX : Int)) from by exact_mod_cast hbig),
            if_neg hbig]
        by_cases hpost : post = []
        · rw [if_pos hpost, if_pos hpost]
        · rw [if_neg hpost, if_neg hpost, hslen, List.take_length]
          norm_num
    · have hjunk : pre.dropWhile c_isdigit ≠ [] := by
        intro hnil
        exact hallp (List.all_eq_true.mpr (fun c hc => by
          simpa using List.dropWhile_eq_nil_iff.mp hnil c (by simpa using hc)))
      have hlt : (pre.takeWhile c_isdigit).length < pre.length :=
        dropWhile_ne_nil_length pre hjunk
      rw [if_pos (show (pre.takeWhile c_isdigit).length ≠ pre.length from by omega),
          if_pos (show ¬ pre.all c_isdigit = true from hallp)]
  · subst hpre
    rw [strtol_negdigits ds post hdsne hall]
    dsimp only
    rw [if_neg (show ¬ (1 + ds.length = 0) from by omega),
        if_neg (show ¬ (1 + ds.length ≠ ('-' :: ds : List Char).length) from by
          simp [Nat.add_comm]),
        if_neg (show ¬ (('-' :: ds : List Char) = []) from by simp),
        if_pos (show ('-' :: ds : List Char).head? = some '-' from rfl)]
    have hdrop : ('-' :: ds : List Char).drop 1 = ds := rfl
    rw [hdrop]
    by_cases hz : digitsVal ds = 0
    · rw [if_neg (show ¬ (-(digitsVal ds : Int) < 0) from by simp [hz]),
        if_neg (show ¬ (-(digitsVal ds : Int) > (INT_MAX : Int)) from by
          norm_num [hz, INT_MAX]),
        if_pos hz]
      by_cases hpost : post = []
      · rw [if_pos hpost, if_pos hpost]
      · rw [if_neg hpost, if_neg hpost, hslen, List.take_length]
        simp [hz]
    · rw [if_pos (show -(digitsVal ds : Int) < 0 from by
          rw [neg_lt_zero]
          exact_mod_cast Nat.pos_of_ne_zero hz),
        if_neg hz]

/-! ### Filesystem-node lookup lemmas -/

theorem skip_suffix (s : List Char) :
    ∃ pre, pre ++ path_skip_slash_dotslash s = s := by
  induction s with
  | nil => exact ⟨[], rfl⟩
  | cons c rest ih =>
    by_cases hc : c = '/' ∨ (c = '.' ∧ rest.head? = some '/')
    · obtain ⟨p, hp⟩ := ih
      exact ⟨c :: p, by simp [path_skip_slash_dotslash, hc, hp]⟩
    · exact ⟨[], by simp [path_skip_slash_dotslash, hc]⟩

theorem append_pred_slash (pre norm : List Char) (hne : pre ≠ [])
    (hget : (pre ++ norm).get? (pre.length - 1) = some '/') :
    (pre ++ norm).drop (pre.length - 1) = '/' :: norm := by
  induction pre with
  | nil => exact absurd rfl hne
  | cons p pre ih =>
    cases pre with
    | nil =>
      simp only [List.singleton_append, List.length_singleton, Nat.sub_self,
        List.get?_cons_zero, Option.some_inj] at hget
      simp [hget]
    | cons q pre' =>
      have hidx : (p :: q :: pre' : List Char).length - 1 = (q :: pre').length - 1 + 1 := by
        simp
      rw [hidx] at hget ⊢
      rw [List.cons_append, List.get?_cons_succ] at hget
      rw [List.cons_append, List.drop_succ_cons]
      exact ih (by simp) hget

theorem nocopy_name (orig : List Char)
    (h1 : (path_skip_slash_dotslash orig).length < orig.length)
    (h2 : orig.get? (orig.length - (path_skip_slash_dotslash orig).length - 1) = some '/') :
    orig.drop (orig.length - (path_skip_slash_dotslash orig).length - 1)
      = '/' :: path_skip_slash_dotslash orig := by
  set norm := path_skip_slash_dotslash orig with hnorm
  obtain ⟨pre, hp⟩ := skip_suffix orig
  rw [← hnorm] at hp
  have hlen : pre.length + norm.length = orig.length := by
    conv_rhs => rw [← hp]
    simp
  have hne : pre ≠ [] := by
    intro h0
    rw [h0, List.length_nil, Nat.zero_add] at hlen
    omega
  have hidx : orig.length - norm.length - 1 = pre.length - 1 := by
    omega
  rw [hidx, ← hp] at h2 ⊢
  exact append_pred_slash pre norm hne h2

theorem name_cons_of_slash (n : FsysNamenode) (target : List Char)
    (h1 : n.name.head? = some '/') (h2 : n.name.drop 1 = target) :
    n.name = '/' :: target := by
  cases hn : n.name with
  | nil => rw [hn] at h1; simp at h1
  | cons a l =>
    rw [hn] at h1 h2
    simp only [List.head?_cons, Option.some_inj] at h1
    simp only [List.drop_one, List.tail_cons] at h2
    rw [h1, h2]

theorem chain_lookup_all_slash (chain : List FsysNamenode) (target : List Char)
    (h : ∀ n ∈ chain, n.name.head? = some '/') :
    fsys_hash_chain_lookup chain target = .ok none ∨
    (∃ n, fsys_hash_chain_lookup chain target = .ok (some n) ∧ n.name = '/' :: target) := by
  induction chain with
  | nil => exact Or.inl rfl
  | cons n rest ih =>
    have hn := h n (by simp)
    by_cases hm : n.name.drop 1 = target
    · refine Or.inr ⟨n, ?_, name_cons_of_slash n target hn hm⟩
      rw [List.drop_one] at hm
      simp [fsys_hash_chain_lookup, hn, hm]
    · have hrec := ih (fun m hm2 => h m (by simp [hm2]))
      rw [List.drop_one] at hm
      rcases hrec with h0 | ⟨m, h0, hname⟩
      · exact Or.inl (by simp [fsys_hash_chain_lookup, hn, hm, h0])
      · exact Or.inr ⟨m, by simp [fsys_hash_chain_lookup, hn, hm, h0], hname⟩

theorem chain_lookup_bad_head (n : FsysNamenode) (rest : List FsysNamenode)
    (target : List Char) (h : ¬ n.name.head? = some '/') :
    fsys_hash_chain_lookup (n :: rest) target = .error .nodeNameNotSlash := by
  simp [fsys_hash_chain_lookup, h]

/-- The created node's name in `fsys_hash_find_node` has the same value in
the borrowing (`FHFF_NOCOPY`) arm as in the copying arm. -/
theorem find_eq_canonical (t : FsysHash) (name : List Char) (flags : FindFlags) :
    fsys_hash_find_node t name flags =
      (match fsys_hash_chain_lookup
          (t.bins (str_fnv_hash (path_skip_slash_dotslash name) % BINS))
          (path_skip_slash_dotslash name) with
       | .error e => .error e
       | .ok (some n) => .ok (some n, t)
       | .ok none =>
         if flags.fhff_none then .ok (none, t)
         else
           .ok (some ⟨'/' :: path_skip_slash_dotslash name, [], none, none, none, 0, none,
                      .emptyFlag, none⟩,
                ⟨fun i =>
                   if i = str_fnv_hash (path_skip_slash_dotslash name) % BINS then
                     t.bins (str_fnv_hash (path_skip_slash_dotslash name) % BINS) ++
                       [⟨'/' :: path_skip_slash_dotslash name, [], none, none, none, 0, none,
                         .emptyFlag, none⟩]
                   else t.bins i,
                 t.nfiles + 1⟩)) := by
  unfold fsys_hash_find_node
  dsimp only
  cases hchain : fsys_hash_chain_lookup
      (t.bins (str_fnv_hash (path_skip_slash_dotslash name) % BINS))
      (path_skip_slash_dotslash name) with
  | error e => rfl
  | ok r =>
    cases r with
    | some n => rfl
    | none =>
      dsimp only
      by_cases hf : flags.fhff_none
      · simp [hf]
      · simp only [hf, Bool.false_eq_true, if_false]
        by_cases hcond : flags.fhff_nocopy ∧
            (path_skip_slash_dotslash name).length < name.length ∧
            name.get? (name.length - (path_skip_slash_dotslash name).length - 1) = some '/'
        · rw [if_pos hcond, nocopy_name name hcond.2.1 hcond.2.2]
        · rw [if_neg hcond]

/-- The post-epoch stages recover the exact components from a formatted
upstream/revision pair. -/
theorem roundtrip_rest (e : Nat) (ver rev : List Char) (hne : ver ≠ [])
    (hr : '-' ∉ rev) (hvr : rev = [] → '-' ∉ ver) :
    resultVersion (parseversion_rest e (ver ++ (if rev ≠ [] then '-' :: rev else []))) =
      some ⟨e, ver, rev⟩ := by
  by_cases hrev : rev = []
  · rw [if_neg (show ¬ rev ≠ [] from by simp [hrev]), List.append_nil,
        rest_no_hyphen e ver (hvr hrev)]
    rw [hrev]
    exact checks_result e ver [] hne
  · rw [if_pos hrev, rest_hyphen e ver rev hr hrev]
    exact checks_result e ver rev hne

/-- Claim C2 (code_bug evidence): runcmd joins the argument vector with
spaces into one string; shell field splitting of that string does not
recover the original argument boundaries.  For `argv = ["/bin/touch", "a b"]`
the child sees the three words `/bin/touch`, `a`, `b`. -/
theorem c2_runcmd_join_loses_argv :
    runcmdJoin ["/bin/touch".data, "a b".data] = "/bin/touch a b ".data ∧
    shellWords (runcmdJoin ["/bin/touch".data, "a b".data]) =
      ["/bin/touch".data, "a".data, "b".data] ∧
    shellWords (runcmdJoin ["/bin/touch".data, "a b".data]) ≠
      ["/bin/touch".data, "a b".data] := by
  refine ⟨by decide, by decide, by decide⟩

set_option maxRecDepth 8000 in
/-- Claim C8 (code_bug evidence): a single 300-character argument makes
runcmd's copy loop write 302 bytes (argument, joining space, NUL) into the
fixed 200-byte `cmdstring` buffer — an out-of-bounds write; no precondition
in the code prevents this. -/
theorem c8_runcmd_buffer_overflow :
    runcmdBytes [List.replicate 300 'a'] = 302 ∧
    ¬ runcmdBytes [List.replicate 300 'a'] ≤ CMDSTRING_SIZE := by
  have h : runcmdBytes [List.replicate 300 'a'] = 302 := by
    simp [runcmdBytes, runcmdJoin]
  refine ⟨h, by rw [h]; decide⟩

/-- Claim C7: the spec's `reset` operation on the filesystem-node table
(realised by `fsys_hash_init`, which clears transient state at engine init)
sets every stored node's flags to 0, clears the old hash, sets the new hash
to the empty-hash marker and clears the on-disk identity, while preserving
every node's name, owning packages, diversion record and stat override, and
removing no node from any bin. -/
theorem c7_reset_frame (t : FsysHash) (i : Nat) :
    ((fsys_hash_init t).bins i).length = (t.bins i).length ∧
    ((fsys_hash_init t).bins i).map FsysNamenode.name = (t.bins i).map FsysNamenode.name ∧
    ((fsys_hash_init t).bins i).map FsysNamenode.packages =
      (t.bins i).map FsysNamenode.packages ∧
    ((fsys_hash_init t).bins i).map FsysNamenode.divert = (t.bins i).map FsysNamenode.divert ∧
    ((fsys_hash_init t).bins i).map FsysNamenode.statoverride =
      (t.bins i).map FsysNamenode.statoverride ∧
    ((fsys_hash_init t).bins i).map
        (fun n => (n.flags, n.oldhash, n.newhash, n.file_ondisk_id)) =
      List.replicate (t.bins i).length
        ((0 : Nat), (none : Option (List Char)), NewHash.emptyFlag, (none : Option Nat)) ∧
    (fsys_hash_init t).nfiles = t.nfiles := by
  refine ⟨?_, ?_, ?_, ?_, ?_, ?_, rfl⟩
  · simp [fsys_hash_init]
  · simp [fsys_hash_init]
  · simp [fsys_hash_init]
  · simp [fsys_hash_init]
  · simp [fsys_hash_init]
  · show ((t.bins i).map _).map _ = _
    rw [List.map_map]
    exact map_const_replicate (t.bins i)
      ((0 : Nat), (none : Option (List Char)), NewHash.emptyFlag, (none : Option Nat))

/-- Claim C10: `versiondescribe` yields the `<none>` placeholder exactly on
the non-informative branch — taken precisely when the epoch is zero and the
upstream and revision strings are unset — and otherwise yields the
`varbufversion` rendering for the requested epoch-display mode. -/
theorem c10_versiondescribe (v : DpkgVersion) (w : Vdew) :
    (versiondescribe v w =
      if dpkg_version_is_informative v then varbufversion v w else "<none>".data) ∧
    (dpkg_version_is_informative v = false ↔
      v.epoch = 0 ∧ v.version = [] ∧ v.revision = []) := by
  constructor
  · by_cases h : dpkg_version_is_informative v <;> simp [versiondescribe, h]
  · simp [dpkg_version_is_informative, List.isEmpty_iff, and_assoc]

/-- Claim C4: the three syntax conditions "does not start with digit",
"invalid character in version" and "invalid character in revision" produce
warning-level results of `parseversion`, unlike hard errors such as an
empty version or a bad epoch; `parse_db_version` turns a warning-level
result into a non-fatal warning exactly when the lax flag is set, and a
fatal error otherwise; error-level results are always fatal. -/
theorem c4_lax_warning_downgrade (s₂ s₃ : List Char) (v₂ : DpkgVersion)
    (w₂ : VersionWarning) (e₃ : VersionError) (b₃ : Bool) :
    (parseversion "abc".data = .warn ⟨0, "abc".data, []⟩ .noDigitStart) ∧
    (parseversion "1.0!".data = .warn ⟨0, "1.0!".data, []⟩ .invalidCharVersion) ∧
    (parseversion "1.0-1!".data = .warn ⟨0, "1.0".data, "1!".data⟩ .invalidCharRevision) ∧
    (parseversion "".data = .error .emptyVersion) ∧
    (parseversion "1:".data = .error .emptyAfterEpochColon) ∧
    (parseversion s₂ = .warn v₂ w₂ →
      parse_db_version true s₂ = .warned v₂ w₂ ∧
      parse_db_version false s₂ = .fatalFromWarn w₂) ∧
    (parseversion s₃ = .error e₃ → parse_db_version b₃ s₃ = .fatalFromError e₃) := by
  refine ⟨by decide, by decide, by decide, by decide, by decide, ?_, ?_⟩
  · intro h
    constructor <;> simp [parse_db_version, h]
  · intro h
    simp [parse_db_version, h]

/-- Witness for C4 at concrete inputs: `"abc"` is downgraded to a warning
under the lax flag and fatal without it; the empty string is fatal under
any flag. -/
theorem c4_lax_warning_downgrade_witness :
    parse_db_version true "abc".data = .warned ⟨0, "abc".data, []⟩ .noDigitStart ∧
    parse_db_version false "abc".data = .fatalFromWarn .noDigitStart ∧
    parse_db_version true "".data = .fatalFromError .emptyVersion := by
  have h := c4_lax_warning_downgrade "abc".data "".data ⟨0, "abc".data, []⟩
    .noDigitStart .emptyVersion true
  exact ⟨(h.2.2.2.2.2.1 (by decide)).1, (h.2.2.2.2.2.1 (by decide)).2,
         h.2.2.2.2.2.2 (by decide)⟩

/-- Claim C9: after `command_init` and any sequence of `command_add_arg`,
`command_add_argl` and `command_add_argv` calls, the argv array holds
exactly the appended arguments in append order at indices `0..argc-1`, is
NULL-terminated at index `argc`, and the capacity grown by
`command_grow_argv` always covers the terminator slot. -/
theorem c9_argv_invariant (fn nm : List Char) (ops : List CmdOp) :
    command_argv_invariant (ops.foldl applyOp (command_init fn (some nm)))
      ((ops.map opArgs).flatten) := by
  have hinit : command_argv_invariant (command_init fn (some nm)) [] := by
    refine ⟨rfl, rfl, by show (1 : Nat) ≤ 10; decide, rfl, rfl⟩
  simpa using command_argv_invariant_fold (command_init fn (some nm)) [] ops hinit

/-- Claim C3: on a table whose searched chain is well formed, a lookup
that may create returns a node whose stored name is a single `/` followed
by the input normalized by stripping leading `/` and `./` pairs; two
spellings normalizing identically give identical lookup results; and a
stored node whose name does not start with `/` makes the lookup fail with
the fatal internal error, never silently. -/
theorem c3_fsys_hash_canonical
    (t₁ : FsysHash) (p₁ : List Char) (f₁ : FindFlags)
    (t₂ : FsysHash) (p₂ q₂ : List Char) (f₂ : FindFlags)
    (t₃ : FsysHash) (p₃ : List Char) (f₃ : FindFlags)
    (n₃ : FsysNamenode) (rest₃ : List FsysNamenode)
    (H1 : ∀ n ∈ t₁.bins (str_fnv_hash (path_skip_slash_dotslash p₁) % BINS),
      n.name.head? = some '/')
    (Hf : f₁.fhff_none = false)
    (H2 : path_skip_slash_dotslash p₂ = path_skip_slash_dotslash q₂)
    (H3 : t₃.bins (str_fnv_hash (path_skip_slash_dotslash p₃) % BINS) = n₃ :: rest₃)
    (H4 : ¬ n₃.name.head? = some '/') :
    (find_result_ok (fsys_hash_find_node t₁ p₁ f₁) = true ∧
     find_result_name (fsys_hash_find_node t₁ p₁ f₁) =
       some ('/' :: path_skip_slash_dotslash p₁)) ∧
    fsys_hash_find_node t₂ p₂ f₂ = fsys_hash_find_node t₂ q₂ f₂ ∧
    fsys_hash_find_node t₃ p₃ f₃ = .error .nodeNameNotSlash := by
  refine ⟨?_, ?_, ?_⟩
  · rw [find_eq_canonical]
    rcases chain_lookup_all_slash
        (t₁.bins (str_fnv_hash (path_skip_slash_dotslash p₁) % BINS))
        (path_skip_slash_dotslash p₁) H1 with h0 | ⟨n, h0, hname⟩
    · rw [h0]
      dsimp only
      rw [if_neg (by simp [Hf])]
      exact ⟨rfl, rfl⟩
    · rw [h0]
      dsimp only
      exact ⟨rfl, by simp [find_result_name, hname]⟩
  · rw [find_eq_canonical t₂ p₂ f₂, find_eq_canonical t₂ q₂ f₂, H2]
  · rw [find_eq_canonical, H3, chain_lookup_bad_head n₃ rest₃ _ H4]

/-- Witness for C3: on an empty table, looking up `./usr//bin` creates the
node `/usr//bin`; the spellings `./usr//bin` and `//usr//bin` give the same
result; and a table holding a node named `x` (no leading slash) makes the
lookup fail with the internal error. -/
theorem c3_fsys_hash_canonical_witness :
    (find_result_name (fsys_hash_find_node ⟨fun _ => [], 0⟩ "./usr//bin".data
        ⟨false, false⟩) = some ('/' :: path_skip_slash_dotslash "./usr//bin".data)) ∧
    fsys_hash_find_node ⟨fun _ => [], 0⟩ "./usr//bin".data ⟨false, false⟩ =
      fsys_hash_find_node ⟨fun _ => [], 0⟩ "//usr//bin".data ⟨false, false⟩ ∧
    fsys_hash_find_node
        ⟨fun _ => [⟨"x".data, [], none, none, none, 0, none, .emptyFlag, none⟩], 0⟩
        "a".data ⟨false, false⟩ = .error .nodeNameNotSlash := by
  have h := c3_fsys_hash_canonical
    ⟨fun _ => [], 0⟩ "./usr//bin".data ⟨false, false⟩
    ⟨fun _ => [], 0⟩ "./usr//bin".data "//usr//bin".data ⟨false, false⟩
    ⟨fun _ => [⟨"x".data, [], none, none, none, 0, none, .emptyFlag, none⟩], 0⟩
    "a".data ⟨false, false⟩
    ⟨"x".data, [], none, none, none, 0, none, .emptyFlag, none⟩ []
    (fun n hn => absurd hn (List.not_mem_nil n))
    rfl (by decide) rfl (by decide)
  exact ⟨h.1.2, h.2.1, h.2.2⟩

/-- Claim C5: a version string with no colon parses with epoch 0; when a
colon is present, the characters before it decide the outcome exactly as
listed — no digits before the colon is an empty-epoch error, trailing
non-digits after the number are a non-numeric-epoch error, a negative
number is a negative-epoch error, a value beyond INT_MAX is an
epoch-too-large error, an empty tail after the colon is rejected, and
otherwise the decimal value becomes the epoch. -/
theorem c5_epoch_parsing (s₁ : List Char) (v₁ : DpkgVersion) (pre post : List Char)
    (hA1 : ':' ∉ s₁)
    (hA2 : resultVersion (parseversion s₁) = some v₁)
    (hbp : ∀ c ∈ pre, c_isblank c = false) (hbq : ∀ c ∈ post, c_isblank c = false)
    (hcp : ':' ∉ pre)
    (hshape : pre = [] ∨ (∃ d pre', pre = d :: pre' ∧ c_isdigit d = true) ∨
              (∃ ds, pre = '-' :: ds ∧ ds ≠ [] ∧ (∀ c ∈ ds, c_isdigit c = true))) :
    v₁.epoch = 0 ∧
    parseversion (pre ++ ':' :: post) =
      (if pre = [] then .error .emptyEpoch
       else if pre.head? = some '-' then
         (if digitsVal (pre.drop 1) = 0 then
            (if post = [] then .error .emptyAfterEpochColon
             else parseversion_rest 0 post)
          else .error .negativeEpoch)
       else if ¬ pre.all c_isdigit then .error .nonNumericEpoch
       else if digitsVal pre > INT_MAX then .error .epochTooLarge
       else if post = [] then .error .emptyAfterEpochColon
       else parseversion_rest (digitsVal pre) post) :=
  ⟨parseversion_no_colon_epoch s₁ v₁ hA1 hA2,
   parseversion_colon_cases pre post hbp hbq hcp hshape⟩

/-- Witness for C5: `"1.0"` (no colon) parses with epoch 0, and `"5:1.0"`
parses with epoch 5. -/
theorem c5_epoch_parsing_witness :
    parseversion "1.0".data = .ok ⟨0, "1.0".data, []⟩ ∧
    parseversion "5:1.0".data = .ok ⟨5, "1.0".data, []⟩ := by
  have h := c5_epoch_parsing "1.0".data ⟨0, "1.0".data, []⟩ "5".data "1.0".data
    (by decide) (by decide) (by decide) (by decide) (by decide)
    (Or.inr (Or.inl ⟨'5', [], by decide, by decide⟩))
  have he : "5:1.0".data = "5".data ++ ':' :: "1.0".data := by decide
  refine ⟨by decide, ?_⟩
  rw [he, h.2]
  decide

/-- Claim C6: after the epoch prefix is removed, `parseversion` splits the
remaining text at its last hyphen into upstream and revision; with no
hyphen the revision is empty and the upstream is the whole text; with a
hyphen whose tail is empty the parse fails with the empty-revision error. -/
theorem c6_revision_split (e₁ e₂ e₃ : Nat) (s₁ a b c₃ : List Char) (v₁ v₂ : DpkgVersion)
    (h1 : '-' ∉ s₁) (h2 : resultVersion (parseversion_rest e₁ s₁) = some v₁)
    (hb : '-' ∉ b) (hbne : b ≠ [])
    (h3 : resultVersion (parseversion_rest e₂ (a ++ '-' :: b)) = some v₂) :
    (v₁.version = s₁ ∧ v₁.revision = []) ∧
    (v₂.version = a ∧ v₂.revision = b) ∧
    parseversion_rest e₃ (c₃ ++ ['-']) = .error .emptyRevision := by
  refine ⟨?_, ?_, rest_empty_revision e₃ c₃⟩
  · rw [rest_no_hyphen e₁ s₁ h1] at h2
    have := checks_result_inv e₁ s₁ [] v₁ h2
    simp [this]
  · rw [rest_hyphen e₂ a b hb hbne] at h3
    have := checks_result_inv e₂ a b v₂ h3
    simp [this]

/-- Witness for C6: `"1.0"` keeps an empty revision, `"1.0-2-3"` splits at
the last hyphen into upstream `1.0-2` and revision `3`, and a trailing
hyphen is an empty-revision error. -/
theorem c6_revision_split_witness :
    ((⟨1, "1.0-2".data, "3".data⟩ : DpkgVersion).version = "1.0-2".data ∧
     (⟨1, "1.0-2".data, "3".data⟩ : DpkgVersion).revision = "3".data) ∧
    parseversion_rest 0 ("1.0".data ++ ['-']) = .error .emptyRevision := by
  have h := c6_revision_split 0 1 0 "1.0".data "1.0-2".data "3".data "1.0".data
    ⟨0, "1.0".data, []⟩ ⟨1, "1.0-2".data, "3".data⟩
    (by decide) (by decide) (by decide) (by decide) (by decide)
  exact ⟨h.2.1, h.2.2⟩

/-- Claim C1 (counterexample): the round-trip fails as universally stated.
For the version value `(0, "", "")`, formatting followed by re-parsing
yields a hard parse error under every epoch-display mode, so no version
equal to the original is recovered. -/
theorem c1_round_trip_counterexample :
    parseversion (varbufversion ⟨0, [], []⟩ .never) = .error .emptyVersion ∧
    parseversion (varbufversion ⟨0, [], []⟩ .nonambig) = .error .emptyVersion ∧
    parseversion (varbufversion ⟨0, [], []⟩ .always) = .error .emptyAfterEpochColon := by
  refine ⟨by decide, by decide, by decide⟩

/-- Claim C1 (amended): the round-trip holds for every version value whose
epoch fits in a C int, whose upstream string is non-empty and blank-free,
and whose blank-free revision contains no hyphen (with the upstream also
hyphen-free when the revision is empty): formatting with `varbufversion`
in the non-ambiguous epoch mode and re-parsing with `parseversion` writes
back exactly the original three components. -/
theorem c1_round_trip_amended (v : DpkgVersion) (hmax : v.epoch ≤ INT_MAX)
    (hne : v.version ≠ [])
    (hbv : ∀ c ∈ v.version, c_isblank c = false)
    (hbr : ∀ c ∈ v.revision, c_isblank c = false)
    (hhr : '-' ∉ v.revision)
    (hvr : v.revision = [] → '-' ∉ v.version) :
    resultVersion (parseversion (varbufversion v .nonambig)) = some v := by
  obtain ⟨E, ver, rev⟩ := v
  dsimp only at hmax hne hbv hbr hhr hvr ⊢
  have hbS : ∀ c ∈ ver ++ (if rev ≠ [] then '-' :: rev else []), c_isblank c = false := by
    intro c hc
    rcases List.mem_append.mp hc with h | h
    · exact hbv c h
    · by_cases hrev : rev = []
      · rw [if_neg (show ¬ rev ≠ [] from by simp [hrev])] at h
        simp at h
      · rw [if_pos hrev] at h
        rcases List.mem_cons.mp h with rfl | h
        · decide
        · exact hbr c h
  have hSne : ver ++ (if rev ≠ [] then '-' :: rev else []) ≠ [] := by
    intro h0
    exact hne (List.append_eq_nil.mp h0).1
  unfold varbufversion
  dsimp only
  by_cases hcond : (E = 0 ∧ ':' ∉ ver ∧ ':' ∉ rev)
  · rw [if_pos hcond, List.nil_append]
    rw [parseversion_of_token _ hSne hbS]
    unfold parseversion_epoch
    have hcs : ':' ∉ ver ++ (if rev ≠ [] then '-' :: rev else []) := by
      intro hm
      rcases List.mem_append.mp hm with h | h
      · exact hcond.2.1 h
      · by_cases hrev : rev = []
        · rw [if_neg (show ¬ rev ≠ [] from by simp [hrev])] at h
          simp at h
        · rw [if_pos hrev] at h
          rcases List.mem_cons.mp h with heq | h
          · exact absurd heq (by decide)
          · exact hcond.2.2 h
    rw [split_first_of_not_mem ':' _ hcs]
    rw [roundtrip_rest 0 ver rev hne hhr hvr, hcond.1]
  · rw [if_neg hcond]
    have hassoc : (natDigits E ++ [':']) ++ (ver ++ (if rev ≠ [] then '-' :: rev else []))
        = natDigits E ++ ':' :: (ver ++ (if rev ≠ [] then '-' :: rev else [])) := by
      simp
    rw [List.append_assoc, hassoc]
    obtain ⟨d, ds', hnd⟩ := List.exists_cons_of_ne_nil (natDigits_ne_nil E)
    have hd : c_isdigit d = true := natDigits_all_digits E d (by rw [hnd]; simp)
    have hall : natDigits E |>.all c_isdigit := List.all_eq_true.mpr
      (fun c hc => by simpa using natDigits_all_digits E c hc)
    rw [parseversion_colon_cases (natDigits E) _
      (fun c hc => (digit_char_facts c (natDigits_all_digits E c hc)).2.1) hbS
      (fun hc => absurd rfl (digit_char_facts ':' (natDigits_all_digits E ':' hc)).2.2.2.2)
      (Or.inr (Or.inl ⟨d, ds', hnd, hd⟩))]
    rw [if_neg (natDigits_ne_nil E),
        if_neg (show ¬ (natDigits E).head? = some '-' from by
          rw [hnd]
          simp only [List.head?_cons, Option.some_inj]
          rintro rfl
          exact absurd rfl (digit_char_facts '-' hd).2.2.1),
        if_neg (show ¬ ¬ (natDigits E).all c_isdigit = true from by simp [hall]),
        if_neg (show ¬ digitsVal (natDigits E) > INT_MAX from by
          rw [digitsVal_natDigits]
          omega),
        if_neg hSne, digitsVal_natDigits]
    exact roundtrip_rest E ver rev hne hhr hvr

/-- Witness for the amended C1 at the version value `(3, "1.0", "2")`. -/
theorem c1_round_trip_witness :
    resultVersion (parseversion (varbufversion ⟨3, "1.0".data, "2".data⟩ .nonambig)) =
      some ⟨3, "1.0".data, "2".data⟩ :=
  c1_round_trip_amended ⟨3, "1.0".data, "2".data⟩ (by decide) (by decide) (by decide)
    (by decide) (by decide) (by decide)

end Dpkg
